import Mathlib

/-!
Verification of the oxidd-viz diagram layout and rendering engine against its
specification.  Program fragments are shallowly embedded: GLSL shader floats are
modelled as rationals, TypeScript arrays as lists, and the tool / UI state
machines as pure state-transition functions.
-/

/-! ### Animation engine (vertex shader interpolation, src/unnamed/part_002) -/

/-- An animated attribute as in the data model: old value, new value, start time
and duration.  Values are modelled as rationals (exact real arithmetic of the
shader formulas). -/
structure AnimatedAttribute where
  old : ℚ
  new : ℚ
  startTime : ℚ
  duration : ℚ
deriving DecidableEq, Repr

/-- The interpolation fraction computed by the vertex shader:
min((time - startTime) / duration, 1.0).  Note the source applies only an upper
clamp at 1, no lower clamp at 0. -/
def AnimatedAttribute.fraction (a : AnimatedAttribute) (t : ℚ) : ℚ :=
  min ((t - a.startTime) / a.duration) 1

/-- The sampled value computed by the vertex shader:
per * new + (1 - per) * old. -/
def AnimatedAttribute.sample (a : AnimatedAttribute) (t : ℚ) : ℚ :=
  a.fraction t * a.new + (1 - a.fraction t) * a.old

/-! ### Vertex shader (src/unnamed/part_002, function main) -/

/-- A two-component vector of the shader. -/
structure Vec2 where
  x : ℚ
  y : ℚ
deriving DecidableEq, Repr

/-- A four-component vector of the shader. -/
structure Vec4 where
  x : ℚ
  y : ℚ
  z : ℚ
  w : ℚ
deriving DecidableEq, Repr

/-- Component-wise product of two vec4 values, the GLSL * operator on vectors. -/
def Vec4.compMul (a b : Vec4) : Vec4 :=
  ⟨a.x * b.x, a.y * b.y, a.z * b.z, a.w * b.w⟩

/-- A 4x4 matrix with row-major entries. -/
structure Mat4 where
  m00 : ℚ
  m01 : ℚ
  m02 : ℚ
  m03 : ℚ
  m10 : ℚ
  m11 : ℚ
  m12 : ℚ
  m13 : ℚ
  m20 : ℚ
  m21 : ℚ
  m22 : ℚ
  m23 : ℚ
  m30 : ℚ
  m31 : ℚ
  m32 : ℚ
  m33 : ℚ
deriving DecidableEq, Repr

/-- Matrix-vector product, the GLSL mat4 * vec4 operation. -/
def Mat4.apply (m : Mat4) (v : Vec4) : Vec4 :=
  ⟨m.m00 * v.x + m.m01 * v.y + m.m02 * v.z + m.m03 * v.w,
   m.m10 * v.x + m.m11 * v.y + m.m12 * v.z + m.m13 * v.w,
   m.m20 * v.x + m.m21 * v.y + m.m22 * v.z + m.m23 * v.w,
   m.m30 * v.x + m.m31 * v.y + m.m32 * v.z + m.m33 * v.w⟩

/-- The identity 4x4 matrix. -/
def Mat4.identity : Mat4 :=
  ⟨1, 0, 0, 0, 0, 1, 0, 0, 0, 0, 1, 0, 0, 0, 0, 1⟩

/-- The GLSL int() conversion on a float: truncation toward zero, modelled on
rationals via truncating integer division of numerator by denominator. -/
def glslInt (q : ℚ) : ℤ :=
  Int.tdiv q.num q.den

/-- The per-vertex input attributes of the render vertex shader. -/
structure VertexIn where
  position : Vec2
  positionOld : Vec2
  positionStartTime : ℚ
  positionDuration : ℚ
  existsV : ℚ
  existsOld : ℚ
  existsStartTime : ℚ
  existsDuration : ℚ
  textureIndex : ℚ
  charCoord : Vec2
deriving DecidableEq, Repr

/-- The uniforms of the render vertex shader. -/
structure VertexUniforms where
  transform : Mat4
  time : ℚ
  boundTextureIndex : ℤ
deriving DecidableEq, Repr

/-- The outputs of the render vertex shader. -/
structure VertexOut where
  charCoordOut : Vec2
  curExists : ℚ
  gl_Position : Vec4
deriving DecidableEq, Repr

/-- The body of the vertex shader main function, transcribed statement by
statement from src/unnamed/part_002. -/
def vertexMain (v : VertexIn) (u : VertexUniforms) : VertexOut :=
  let positionPer := min ((u.time - v.positionStartTime) / v.positionDuration) 1
  let curPosition : Vec2 :=
    ⟨positionPer * v.position.x + (1 - positionPer) * v.positionOld.x,
     positionPer * v.position.y + (1 - positionPer) * v.positionOld.y⟩
  let existsPer := min ((u.time - v.existsStartTime) / v.existsDuration) 1
  let curExists := existsPer * v.existsV + (1 - existsPer) * v.existsOld
  let gl_Position : Vec4 :=
    if u.boundTextureIndex = glslInt v.textureIndex then
      Vec4.compMul (u.transform.apply ⟨curPosition.x, curPosition.y, 0, 1⟩) ⟨2, 2, 2, 1⟩
    else
      ⟨0, 0, 0, 0⟩
  ⟨v.charCoord, curExists, gl_Position⟩

/-- The animated x-position attribute carried by a vertex. -/
def VertexIn.posXAttr (v : VertexIn) : AnimatedAttribute :=
  ⟨v.positionOld.x, v.position.x, v.positionStartTime, v.positionDuration⟩

/-- The animated y-position attribute carried by a vertex. -/
def VertexIn.posYAttr (v : VertexIn) : AnimatedAttribute :=
  ⟨v.positionOld.y, v.position.y, v.positionStartTime, v.positionDuration⟩

/-- The animated existence attribute carried by a vertex. -/
def VertexIn.existsAttr (v : VertexIn) : AnimatedAttribute :=
  ⟨v.existsOld, v.existsV, v.existsStartTime, v.existsDuration⟩

/-! ### Selection tool (src/typescript/src/state/toolbar/SelectionToolState.ts) -/

/-- The shared selection state: the committed selection and the transient
highlight, each a list of global node ids (sharedState.selection and
sharedState.highlight in the source). -/
structure SelectionState where
  selection : List Nat
  highlight : List Nat
deriving DecidableEq, Repr

/-- Classification of pointer events handled by a tool. -/
inductive ToolEventType
  | press
  | drag
  | release
deriving DecidableEq, Repr

/-- A tool event: its classification and whether the modifier key for additive
mode (event.event?.ctrlKey in the source) is held. -/
structure ToolEvent where
  type : ToolEventType
  ctrlKey : Bool
deriving DecidableEq, Repr

/-- The apply method of SelectionToolState, transcribed from the source.  The
local-to-global conversion performed by drawer.local_nodes_to_sources (Rust
code external to the embedded sources) is passed in as the function
localToGlobal; nodes are the hit local node ids. -/
def SelectionToolState.apply (localToGlobal : List Nat → List Nat)
    (state : SelectionState) (nodes : List Nat) (event : ToolEvent) :
    SelectionState :=
  let sourceNodes := localToGlobal nodes
  if event.type = ToolEventType.release then
    let sourceNodes :=
      if event.ctrlKey then
        state.selection.filter (fun n => !sourceNodes.contains n) ++ sourceNodes
      else
        sourceNodes
    { state with selection := sourceNodes }
  else
    { state with highlight := sourceNodes }

/-! ### Configuration component dispatch
(src/typescript/src/UI/components/configuration/ConfigTypeComp.tsx) -/

/-- The runtime classes a configuration object can be an instance of: the nine
classes tested by the instanceof chain plus any other value of the
IConfigObjectType interface. -/
inductive IConfigObjectType
  | intConfig
  | floatConfig
  | labelConfig
  | compositeConfig
  | choiceConfig
  | buttonConfig
  | textOutputConfig
  | panelConfig
  | locationConfig
  | unhandled
deriving DecidableEq, Repr

/-- The React elements ConfigTypeComp can return: one component per handled
config class, or the empty fragment. -/
inductive ConfigComp
  | intConfigComp
  | floatConfigComp
  | labelConfigComp
  | compositeConfigComp
  | choiceConfigComp
  | buttonConfigComp
  | textOutputConfigComp
  | panelConfigComp
  | locationConfigComp
  | emptyFragment
deriving DecidableEq, Repr

/-- The ConfigTypeComp dispatch: the instanceof chain of the source, falling
through to the empty fragment. -/
def ConfigTypeComp : IConfigObjectType → ConfigComp
  | .intConfig => .intConfigComp
  | .floatConfig => .floatConfigComp
  | .labelConfig => .labelConfigComp
  | .compositeConfig => .compositeConfigComp
  | .choiceConfig => .choiceConfigComp
  | .buttonConfig => .buttonConfigComp
  | .textOutputConfig => .textOutputConfigComp
  | .panelConfig => .panelConfigComp
  | .locationConfig => .locationConfigComp
  | .unhandled => .emptyFragment

/-- Whether a value is an instance of one of the nine config classes handled by
the instanceof chain. -/
def isHandledConfig (v : IConfigObjectType) : Bool :=
  v == .intConfig || v == .floatConfig || v == .labelConfig ||
  v == .compositeConfig || v == .choiceConfig || v == .buttonConfig ||
  v == .textOutputConfig || v == .panelConfig || v == .locationConfig

/-! ### Diagram summary file-section buttons
(src/typescript/src/UI/views/diagramCollection/DiagramSummary.tsx) -/

/-- A section of a diagram, classified by the kind of source it was created
from.  Only whether the section is an instance of FileSource matters to the
summary UI. -/
inductive DiagramSection
  | fileSource (id : Nat)
  | selectionSource (id : Nat)
  | otherSource (id : Nat)
deriving DecidableEq, Repr

/-- The instanceof FileSource test of the source. -/
def DiagramSection.isFileSource : DiagramSection → Bool
  | .fileSource _ => true
  | _ => false

/-- The watchableCanCreateFromFile derived value: no existing section of the
diagram is a FileSource. -/
def canCreateFromFile (sections : List DiagramSection) : Bool :=
  !(sections.any DiagramSection.isFileSource)

/-- The disabled prop passed to the Load from dddump and Load from Buddy
AddSectionButton elements: disabled={!canCreateFromFile}. -/
def addSectionButtonDisabled (sections : List DiagramSection) : Bool :=
  !(canCreateFromFile sections)

/-- The actions of the summary UI that change the diagram section list. -/
inductive SummaryAction
  | loadFromFile (id : Nat)
  | createFromSelection (id : Nat)
  | removeSection (s : DiagramSection)
deriving DecidableEq, Repr

/-- Modelled from the spec: createSectionFromDDDMP and createSectionFromBuddy
(DiagramState, a file not among the embedded sources) add a section backed by a
FileSource, createSectionFromSelection adds a non-file section, and
removeSection removes a section; a disabled button ignores its click, so
loadFromFile is a no-op whenever canCreateFromFile is false. -/
def applySummaryAction (sections : List DiagramSection) :
    SummaryAction → List DiagramSection
  | .loadFromFile i =>
      if canCreateFromFile sections then sections ++ [.fileSource i]
      else sections
  | .createFromSelection i => sections ++ [.selectionSource i]
  | .removeSection s => sections.filter (fun t => t ≠ s)

/-- The number of file-backed sections of a diagram. -/
def countFileSources (sections : List DiagramSection) : Nat :=
  (sections.filter DiagramSection.isFileSource).length

/-! ### Section index mapper -/

/-- Modelled from the spec: the Section Index Mapper lives in the Rust crate
oxidd-viz-rust, which is not among the embedded sources.  A section holds an
ordered sequence of global node ids; the local index of a node is its position
in that order. -/
structure Section where
  sourceIds : List Nat
deriving DecidableEq, Repr

/-- Modelled from the spec: localToSource maps each local index to the global
id stored at that position; an out-of-range local index fails with
MappingError, modelled as none. -/
def Section.localToSource (s : Section) (locals : List Nat) :
    Option (List Nat) :=
  locals.mapM (fun i => s.sourceIds.get? i)

/-- Modelled from the spec: sourceToLocal maps each global id to its local
index via the global-to-local lookup, silently omitting ids not present in the
section. -/
def Section.sourceToLocal (s : Section) (globals : List Nat) : List Nat :=
  globals.filterMap (fun g =>
    if g ∈ s.sourceIds then some (s.sourceIds.indexOf g) else none)

/-! ### Layout engine -/

/-- The kind of a diagram node: a decision node with its variable index, or a
terminal node with its value. -/
inductive NodeKind
  | decision (variableIndex : Nat)
  | terminal (value : Nat)
deriving DecidableEq, Repr

/-- Whether a node kind is terminal. -/
def NodeKind.isTerminal : NodeKind → Bool
  | .terminal _ => true
  | .decision _ => false

/-- An edge of a diagram graph: source and target global node ids plus an edge
label. -/
structure GraphEdge where
  source : Nat
  target : Nat
  label : Nat
deriving DecidableEq, Repr

/-- Modelled from the spec: the Layout Engine lives in the Rust crate
oxidd-viz-rust, which is not among the embedded sources.  Its input is the
subgraph induced by a section: the node ids of the section, the id-indexed
arena assigning each node its kind (decision node with variable index, or
terminal node with value), and the edges among the nodes. -/
structure DiagramGraph where
  nodes : List Nat
  kind : Nat → NodeKind
  edges : List GraphEdge

/-- The canonical node order the layout works over: the distinct node ids in
ascending order.  In particular the order never depends on the insertion order
of the input node list. -/
def canonicalNodes (g : DiagramGraph) : List Nat :=
  List.insertionSort (fun a b => a ≤ b) g.nodes.dedup

/-- The direct predecessors of a node: sources of the edges targeting it. -/
def preds (edges : List GraphEdge) (v : Nat) : List Nat :=
  (edges.filter (fun e => e.target == v)).map GraphEdge.source

/-- Longest-path distance from the root set, computed with explicit fuel; on an
acyclic graph any fuel at least the length of the longest path gives the fixed
point. -/
def layerFuel (edges : List GraphEdge) : Nat → Nat → Nat
  | 0, _ => 0
  | fuel + 1, v =>
      ((preds edges v).map (fun u => layerFuel edges fuel u + 1)).foldr max 0

/-- The longest-path distance of a node from the roots, computed with fuel
equal to the number of nodes (enough for any acyclic graph on those nodes). -/
def baseLayer (g : DiagramGraph) (v : Nat) : Nat :=
  layerFuel g.edges g.nodes.length v

/-- The final layer index: the largest longest-path distance of any node of
the section. -/
def finalLayer (g : DiagramGraph) : Nat :=
  ((canonicalNodes g).map (baseLayer g)).foldr max 0

/-- Modelled from the spec: layer(node) = longest-path distance from the
section's roots, and terminal nodes occupy the final layer.  The spec's
constraint that a decision node's layer never exceeds that of any node
reachable from it is met by longest-path layering, which keeps every node
reachable from a decision node on a strictly larger layer. -/
def layer (g : DiagramGraph) (v : Nat) : Nat :=
  if (g.kind v).isTerminal then finalLayer g else baseLayer g v

/-- The nodes placed on a given layer, in canonical (ascending-id) order. -/
def layerMembers (g : DiagramGraph) (l : Nat) : List Nat :=
  (canonicalNodes g).filter (fun v => layer g v == l)

/-- The initial within-layer orders handed to crossing minimization: the
layers from 0 to the final layer, each in ascending id order. -/
def initialLayers (g : DiagramGraph) : List (List Nat) :=
  (List.range (finalLayer g + 1)).map (fun l => layerMembers g l)

/-- The barycenter heuristic value of a node during a sweep: the average of
its predecessors' positions in the previous layer's current order. -/
def barycenter (edges : List GraphEdge) (prev : List Nat) (v : Nat) : ℚ :=
  if (preds edges v).length = 0 then 0
  else ((preds edges v).map (fun u => (prev.indexOf u : ℚ))).sum
    / ((preds edges v).length : ℚ)

/-- The deterministic order a crossing-minimization sweep imposes on a layer:
ascending barycenter, with ties broken by ascending global node id. -/
def baryLe (edges : List GraphEdge) (prev : List Nat) (a b : Nat) : Prop :=
  barycenter edges prev a < barycenter edges prev b ∨
    (barycenter edges prev a = barycenter edges prev b ∧ a ≤ b)

instance baryLeDecidable (edges : List GraphEdge) (prev : List Nat) :
    DecidableRel (baryLe edges prev) := by
  intro a b
  unfold baryLe
  infer_instance

/-- The downward part of a barycenter sweep: each layer is reordered by
barycenter with respect to the already reordered layer above it. -/
def sweepAux (edges : List GraphEdge) (prev : List Nat) :
    List (List Nat) → List (List Nat)
  | [] => []
  | l :: ls =>
      List.insertionSort (baryLe edges prev) l ::
        sweepAux edges (List.insertionSort (baryLe edges prev) l) ls

/-- One crossing-minimization sweep: the root layer keeps its order, every
later layer is reordered by the barycenter heuristic. -/
def sweepDown (edges : List GraphEdge) : List (List Nat) → List (List Nat)
  | [] => []
  | first :: rest => first :: sweepAux edges first rest

/-- Modelled from the spec: iterative crossing minimization, performing
barycenter sweeps until a sweep changes nothing (a fixed point, when no
reordering reduces crossings further) or the iteration cap is hit. -/
def minimizeCrossings (edges : List GraphEdge) :
    Nat → List (List Nat) → List (List Nat)
  | 0, layers => sweepDown edges layers
  | cap + 1, layers =>
      let next := sweepDown edges layers
      if next = layers then next else minimizeCrossings edges cap next

/-- The final within-layer orders: crossing minimization applied to the
initial ascending-id layers, with the node count as iteration cap. -/
def orderedLayers (g : DiagramGraph) : List (List Nat) :=
  minimizeCrossings g.edges g.nodes.length (initialLayers g)

/-- The within-layer order of a node: its position in its layer's final
crossing-minimized order. -/
def orderInLayer (g : DiagramGraph) (v : Nat) : Nat :=
  ((orderedLayers g).getD (layer g v) []).indexOf v

/-- The direct successors of a node: targets of the edges leaving it. -/
def succs (edges : List GraphEdge) (v : Nat) : List Nat :=
  (edges.filter (fun e => e.source == v)).map GraphEdge.target

/-- The nodes reachable from a node, traversed with explicit fuel. -/
def reachList (edges : List GraphEdge) : Nat → Nat → List Nat
  | 0, v => [v]
  | fuel + 1, v =>
      v :: ((succs edges v).map (fun w => reachList edges fuel w)).flatten

/-- The subtree width of a node: the number of distinct nodes reachable from
it, the horizontal room its subtree takes. -/
def subtreeWidth (g : DiagramGraph) (v : Nat) : Nat :=
  ((reachList g.edges g.nodes.length v).dedup).length

/-- The fixed horizontal spacing constant (its concrete value is outside the
spec's scope). -/
def nodeSpacing : ℚ := 1

/-- Modelled from the spec: the x-position is derived from the within-layer
order and subtree-width spacing: the total width of the nodes ordered before
the node in its layer plus half the node's own subtree width, times the
spacing constant. -/
def xPos (g : DiagramGraph) (v : Nat) : ℚ :=
  ((((orderedLayers g).getD (layer g v) []).take
      (((orderedLayers g).getD (layer g v) []).indexOf v)).map
    (fun u => (subtreeWidth g u : ℚ))).sum * nodeSpacing
  + (subtreeWidth g v : ℚ) * nodeSpacing / 2

/-- A laid-out position: x-coordinate, layer, and order within the layer. -/
structure LayoutPos where
  x : ℚ
  layer : Nat
  order : Nat
deriving DecidableEq, Repr

/-- Modelled from the spec: the layout output, one entry per node id mapping it
to (x, layer, order-within-layer). -/
def layoutResult (g : DiagramGraph) : List (Nat × LayoutPos) :=
  (canonicalNodes g).map (fun v =>
    (v, ⟨xPos g v, layer g v, orderInLayer g v⟩))

/-- The diamond graph of the spec scenario: decision root 0 with decision
children 1 and 2, both pointing to the shared terminal leaf 3. -/
def diamondGraph : DiagramGraph :=
  ⟨[0, 1, 2, 3],
    fun v => if v == 3 then NodeKind.terminal 0 else NodeKind.decision v,
    [⟨0, 1, 0⟩, ⟨0, 2, 1⟩, ⟨1, 3, 0⟩, ⟨2, 3, 0⟩]⟩

/-- A two-node graph whose node list is in descending insertion order. -/
def permGraphA : DiagramGraph :=
  ⟨[2, 1], fun v => NodeKind.decision v, []⟩

/-- The same two-node graph with the node list in ascending insertion
order. -/
def permGraphB : DiagramGraph :=
  ⟨[1, 2], fun v => NodeKind.decision v, []⟩

/-! ### Helper lemmas -/

/-- Membership in the predecessor list corresponds to an edge of the graph. -/
theorem mem_preds {edges : List GraphEdge} {v u : Nat} :
    u ∈ preds edges v ↔ ∃ e ∈ edges, e.source = u ∧ e.target = v := by
  simp only [preds, List.mem_map, List.mem_filter, beq_iff_eq]
  constructor
  · rintro ⟨e, ⟨he, ht⟩, hs⟩
    exact ⟨e, he, hs, ht⟩
  · rintro ⟨e, he, hs, ht⟩
    exact ⟨e, ⟨he, ht⟩, hs⟩

/-- Any member of a list of naturals is bounded by the fold of max over it. -/
theorem le_foldr_max {l : List Nat} {a : Nat} (h : a ∈ l) :
    a ≤ l.foldr max 0 := by
  induction l with
  | nil => cases h
  | cons b t ih =>
      simp only [List.foldr_cons]
      rcases List.mem_cons.mp h with rfl | h2
      · exact le_max_left _ _
      · exact le_trans (ih h2) (le_max_right _ _)

/-- The fuel-indexed layer computation is stable: given a topological ranking
of the edges, any two fuel amounts at least the rank of a node produce the same
layer for it. -/
theorem layerFuel_stable (edges : List GraphEdge) (r : Nat → Nat)
    (hr : ∀ e ∈ edges, r e.source < r e.target) :
    ∀ n v fuel₁ fuel₂, r v ≤ n → r v ≤ fuel₁ → r v ≤ fuel₂ →
      layerFuel edges fuel₁ v = layerFuel edges fuel₂ v := by
  intro n
  induction n with
  | zero =>
      intro v fuel₁ fuel₂ hn h1 h2
      have hpred : preds edges v = [] := by
        rcases hp : preds edges v with _ | ⟨u, t⟩
        · rfl
        · exfalso
          have hu : u ∈ preds edges v := by rw [hp]; exact List.mem_cons_self u t
          obtain ⟨e, he, hs, ht⟩ := mem_preds.mp hu
          have := hr e he
          rw [ht] at this
          omega
      have hzero : ∀ fuel, layerFuel edges fuel v = 0 := by
        intro fuel
        cases fuel with
        | zero => rfl
        | succ m => simp [layerFuel, hpred]
      rw [hzero, hzero]
  | succ n ih =>
      intro v fuel₁ fuel₂ hn h1 h2
      by_cases hv : r v ≤ n
      · exact ih v fuel₁ fuel₂ hv h1 h2
      · obtain ⟨a, rfl⟩ : ∃ a, fuel₁ = a + 1 := ⟨fuel₁ - 1, by omega⟩
        obtain ⟨b, rfl⟩ : ∃ b, fuel₂ = b + 1 := ⟨fuel₂ - 1, by omega⟩
        show (List.map (fun u => layerFuel edges a u + 1) (preds edges v)).foldr max 0
            = (List.map (fun u => layerFuel edges b u + 1) (preds edges v)).foldr max 0
        congr 1
        apply List.map_congr_left
        intro u hu
        obtain ⟨e, he, hs, ht⟩ := mem_preds.mp hu
        have hru : r u < r v := by
          have := hr e he
          rw [hs, ht] at this
          exact this
        have := ih u a b (by omega) (by omega) (by omega)
        omega

/-- The sweep order is total. -/
theorem baryLe_total (edges : List GraphEdge) (prev : List Nat) (a b : Nat) :
    baryLe edges prev a b ∨ baryLe edges prev b a := by
  unfold baryLe
  rcases lt_trichotomy (barycenter edges prev a) (barycenter edges prev b) with h | h | h
  · exact Or.inl (Or.inl h)
  · rcases Nat.le_total a b with hab | hab
    · exact Or.inl (Or.inr ⟨h, hab⟩)
    · exact Or.inr (Or.inr ⟨h.symm, hab⟩)
  · exact Or.inr (Or.inl h)

/-- The sweep order is transitive. -/
theorem baryLe_trans (edges : List GraphEdge) (prev : List Nat) (a b c : Nat)
    (h1 : baryLe edges prev a b) (h2 : baryLe edges prev b c) :
    baryLe edges prev a c := by
  unfold baryLe at h1 h2 ⊢
  rcases h1 with h1 | ⟨h1, h1n⟩ <;> rcases h2 with h2 | ⟨h2, h2n⟩
  · exact Or.inl (lt_trans h1 h2)
  · exact Or.inl (h2 ▸ h1)
  · exact Or.inl (h1.symm ▸ h2)
  · exact Or.inr ⟨h1.trans h2, le_trans h1n h2n⟩

/-- Each layer emitted by the downward sweep is sorted with respect to the
sweep order over the layer emitted just before it. -/
theorem sweepAux_chain (edges : List GraphEdge) :
    ∀ (rest : List (List Nat)) (prev : List Nat),
      List.Chain (fun p l => List.Sorted (baryLe edges p) l) prev
        (sweepAux edges prev rest) := by
  intro rest
  induction rest with
  | nil => intro prev; exact List.Chain.nil
  | cons l ls ih =>
      intro prev
      simp only [sweepAux]
      refine List.Chain.cons ?_ (ih _)
      haveI : IsTotal Nat (baryLe edges prev) := ⟨baryLe_total edges prev⟩
      haveI : IsTrans Nat (baryLe edges prev) := ⟨baryLe_trans edges prev⟩
      exact List.sorted_insertionSort _ _

/-- In the output of one crossing-minimization sweep, every layer after the
first is sorted with respect to the sweep order over its predecessor layer. -/
theorem sweepDown_chain (edges : List GraphEdge) (layers : List (List Nat)) :
    List.Chain' (fun p l => List.Sorted (baryLe edges p) l)
      (sweepDown edges layers) := by
  cases layers with
  | nil => exact List.chain'_nil
  | cons first rest =>
      show List.Chain _ first (sweepAux edges first rest)
      exact sweepAux_chain edges rest first

/-- Crossing minimization always returns the output of some sweep. -/
theorem minimize_is_sweep (edges : List GraphEdge) :
    ∀ (cap : Nat) (layers : List (List Nat)),
      ∃ p, minimizeCrossings edges cap layers = sweepDown edges p := by
  intro cap
  induction cap with
  | zero => intro layers; exact ⟨layers, rfl⟩
  | succ n ih =>
      intro layers
      by_cases h : sweepDown edges layers = layers
      · exact ⟨layers, by simp [minimizeCrossings, h]⟩
      · obtain ⟨p, hp⟩ := ih (sweepDown edges layers)
        exact ⟨p, by simp [minimizeCrossings, h, hp]⟩

/-- A sweep keeps the first (root) layer unchanged. -/
theorem sweepDown_headD (edges : List GraphEdge) (layers : List (List Nat)) :
    (sweepDown edges layers).headD [] = layers.headD [] := by
  cases layers <;> rfl

/-- Crossing minimization keeps the first (root) layer unchanged. -/
theorem minimize_headD (edges : List GraphEdge) :
    ∀ (cap : Nat) (layers : List (List Nat)),
      (minimizeCrossings edges cap layers).headD [] = layers.headD [] := by
  intro cap
  induction cap with
  | zero => intro layers; exact sweepDown_headD edges layers
  | succ n ih =>
      intro layers
      by_cases h : sweepDown edges layers = layers
      · simp [minimizeCrossings, h, sweepDown_headD]
      · simp only [minimizeCrossings, if_neg h]
        rw [ih, sweepDown_headD]

/-- The first initial layer is the members of layer 0. -/
theorem initialLayers_headD (g : DiagramGraph) :
    (initialLayers g).headD [] = layerMembers g 0 := by
  unfold initialLayers
  rw [List.range_succ_eq_map]
  rfl

/-- The canonical node order is sorted in ascending id order. -/
theorem canonicalNodes_sorted (g : DiagramGraph) :
    List.Sorted (fun a b => a ≤ b) (canonicalNodes g) :=
  List.sorted_insertionSort _ _

/-- The canonical node order has no duplicate ids. -/
theorem canonicalNodes_nodup (g : DiagramGraph) :
    (canonicalNodes g).Nodup :=
  ((List.perm_insertionSort _ _).nodup_iff).mpr (List.nodup_dedup _)

/-- Membership in the canonical node order is membership in the input nodes. -/
theorem mem_canonicalNodes {g : DiagramGraph} {v : Nat} :
    v ∈ canonicalNodes g ↔ v ∈ g.nodes := by
  simp [canonicalNodes, List.mem_insertionSort, List.mem_dedup]

/-- Permuting the node list and keeping the edges leaves the canonical node
order unchanged. -/
theorem canonicalNodes_perm_eq (g₁ g₂ : DiagramGraph)
    (hn : List.Perm g₁.nodes g₂.nodes) :
    canonicalNodes g₁ = canonicalNodes g₂ := by
  apply List.eq_of_perm_of_sorted (r := fun a b => a ≤ b)
  · exact ((List.perm_insertionSort _ _).trans hn.dedup).trans
      (List.perm_insertionSort _ _).symm
  · exact canonicalNodes_sorted g₁
  · exact canonicalNodes_sorted g₂

/-- The canonical node order is strictly ascending in id. -/
theorem canonicalNodes_sorted_lt (g : DiagramGraph) :
    List.Sorted (fun a b => a < b) (canonicalNodes g) :=
  List.Sorted.lt_of_le (canonicalNodes_sorted g) (canonicalNodes_nodup g)

/-- The members of any layer are listed in strictly ascending id order. -/
theorem layerMembers_sorted_lt (g : DiagramGraph) (l : Nat) :
    List.Sorted (fun a b => a < b) (layerMembers g l) :=
  List.Pairwise.filter _ (canonicalNodes_sorted_lt g)

/-- Appending section lists adds their file-source counts. -/
theorem countFileSources_append (l₁ l₂ : List DiagramSection) :
    countFileSources (l₁ ++ l₂) = countFileSources l₁ + countFileSources l₂ := by
  simp [countFileSources, List.filter_append]

/-- The can-create-from-file flag holds exactly when the diagram has no
file-backed section. -/
theorem canCreateFromFile_iff (sections : List DiagramSection) :
    canCreateFromFile sections = true ↔ countFileSources sections = 0 := by
  simp only [canCreateFromFile, countFileSources, Bool.not_eq_true',
    List.any_eq_false, List.length_eq_zero, List.filter_eq_nil_iff]

/-- One summary action preserves the at-most-one-file-section invariant. -/
theorem applySummaryAction_preserves (sections : List DiagramSection)
    (h : countFileSources sections ≤ 1) (a : SummaryAction) :
    countFileSources (applySummaryAction sections a) ≤ 1 := by
  cases a with
  | loadFromFile i =>
      by_cases hc : canCreateFromFile sections = true
      · have h0 : countFileSources sections = 0 := (canCreateFromFile_iff _).mp hc
        simp only [applySummaryAction, hc, if_true, countFileSources_append, h0]
        simp [countFileSources, DiagramSection.isFileSource]
      · simpa [applySummaryAction, hc] using h
  | createFromSelection i =>
      simp only [applySummaryAction, countFileSources_append]
      have h0 : countFileSources [DiagramSection.selectionSource i] = 0 := by
        simp [countFileSources, DiagramSection.isFileSource]
      omega
  | removeSection s =>
      refine le_trans ?_ h
      simp only [applySummaryAction, countFileSources]
      exact ((List.filter_sublist _).filter _).length_le

/-- Any sequence of summary actions preserves the at-most-one-file-section
invariant. -/
theorem foldSummaryActions_le (actions : List SummaryAction) :
    ∀ sections, countFileSources sections ≤ 1 →
      countFileSources (actions.foldl applySummaryAction sections) ≤ 1 := by
  induction actions with
  | nil => intro s h; simpa using h
  | cons a rest ih =>
      intro s h
      exact ih _ (applySummaryAction_preserves s h a)

/-! ### Claim theorems -/

/-- C1: on a release pointer event, the Selection tool commits exactly the hit
global id set when the modifier key is absent, and the duplicate-free union of
the previously committed selection with the hit global id set when the modifier
key indicates additive mode; the scenario committing the ids 1, 2 and then 3
yields selection 3 non-additively and selection 1, 2, 3 additively. -/
theorem C1_selection_release_commit (f : List Nat → List Nat)
    (s : SelectionState) (nodes : List Nat) (e : ToolEvent)
    (hrel : e.type = ToolEventType.release) :
    (e.ctrlKey = false →
      (SelectionToolState.apply f s nodes e).selection = f nodes) ∧
    (e.ctrlKey = true →
      ((SelectionToolState.apply f s nodes e).selection).toFinset
        = s.selection.toFinset ∪ (f nodes).toFinset) ∧
    (SelectionToolState.apply f s nodes e).highlight = s.highlight ∧
    (SelectionToolState.apply id
      (SelectionToolState.apply id ⟨[], []⟩ [1, 2] ⟨ToolEventType.release, false⟩)
      [3] ⟨ToolEventType.release, false⟩).selection = [3] ∧
    (SelectionToolState.apply id
      (SelectionToolState.apply id ⟨[], []⟩ [1, 2] ⟨ToolEventType.release, false⟩)
      [3] ⟨ToolEventType.release, true⟩).selection = [1, 2, 3] := by
  refine ⟨?_, ?_, ?_, by decide, by decide⟩
  · intro hc
    simp [SelectionToolState.apply, hrel, hc]
  · intro hc
    simp only [SelectionToolState.apply, hrel, hc, if_true, if_pos]
    ext x
    simp only [List.mem_toFinset, List.mem_append, List.mem_filter,
      Finset.mem_union, List.mem_toFinset, Bool.not_eq_true', List.contains,
      List.elem_eq_mem, decide_eq_false_iff_not]
    by_cases hx : x ∈ f nodes <;> simp [hx]
  · simp [SelectionToolState.apply, hrel]

/-- C1 witness: instantiation of the release-commit theorem at a concrete
state, hit set and additive release event. -/
theorem C1_selection_release_commit_witness :
    (⟨ToolEventType.release, true⟩ : ToolEvent).type = ToolEventType.release ∧
    ((SelectionToolState.apply id ⟨[1, 2], []⟩ [2, 3]
        ⟨ToolEventType.release, true⟩).selection).toFinset
      = ([1, 2] : List Nat).toFinset ∪ ([2, 3] : List Nat).toFinset :=
  ⟨rfl,
    (C1_selection_release_commit id ⟨[1, 2], []⟩ [2, 3]
      ⟨ToolEventType.release, true⟩ rfl).2.1 rfl⟩

/-- C2: on every non-release pointer event the Selection tool writes the hit
global id set to the highlight only, leaving the committed selection
unchanged. -/
theorem C2_nonrelease_highlights_only (f : List Nat → List Nat)
    (s : SelectionState) (nodes : List Nat) (e : ToolEvent)
    (h : e.type ≠ ToolEventType.release) :
    (SelectionToolState.apply f s nodes e).highlight = f nodes ∧
    (SelectionToolState.apply f s nodes e).selection = s.selection := by
  constructor <;> simp [SelectionToolState.apply, h]

/-- C2 witness: instantiation at a concrete press event. -/
theorem C2_nonrelease_highlights_only_witness :
    (⟨ToolEventType.press, false⟩ : ToolEvent).type ≠ ToolEventType.release ∧
    ((SelectionToolState.apply id ⟨[5], [6]⟩ [7]
        ⟨ToolEventType.press, false⟩).highlight = [7] ∧
      (SelectionToolState.apply id ⟨[5], [6]⟩ [7]
        ⟨ToolEventType.press, false⟩).selection = [5]) :=
  ⟨by decide,
    C2_nonrelease_highlights_only id ⟨[5], [6]⟩ [7]
      ⟨ToolEventType.press, false⟩ (by decide)⟩

/-- C3 counterexample: the shader fraction has no lower clamp at 0, so for the
attribute with old 0, new 1, startTime 1, duration 1 sampled at time 0 (before
the start time) the sampled value is -1, not the old value 0 the claim
requires. -/
theorem C3_counterexample :
    (0 : ℚ) < (1 : ℚ) ∧
    AnimatedAttribute.sample ⟨0, 1, 1, 1⟩ 0 = -1 ∧
    AnimatedAttribute.sample ⟨0, 1, 1, 1⟩ 0 ≠ (0 : ℚ) := by
  norm_num [AnimatedAttribute.sample, AnimatedAttribute.fraction]

/-- C3 amended: the sampled value is computed with fraction
min((t - startTime)/duration, 1) and value = old*(1-fraction) + new*fraction;
the fraction is clamped above at 1 but not below at 0, so at t = startTime the
value equals old, while for t before startTime the fraction is negative. -/
theorem C3_fraction_clamped_above_only (a : AnimatedAttribute) (t : ℚ)
    (hd : 0 < a.duration) :
    a.fraction t = min ((t - a.startTime) / a.duration) 1 ∧
    a.sample t = a.old * (1 - a.fraction t) + a.new * a.fraction t ∧
    (t = a.startTime → a.sample t = a.old) ∧
    (t < a.startTime → a.fraction t < 0) := by
  refine ⟨rfl, by unfold AnimatedAttribute.sample; ring, ?_, ?_⟩
  · intro ht
    have hfrac : a.fraction t = 0 := by
      rw [AnimatedAttribute.fraction, ht]
      simp
    rw [AnimatedAttribute.sample, hfrac]
    ring
  · intro ht
    have hneg : (t - a.startTime) / a.duration < 0 :=
      div_neg_of_neg_of_pos (by linarith) hd
    exact lt_of_le_of_lt (min_le_left _ _) hneg

/-- C3 witness: instantiation of the amended clamping theorem at a concrete
attribute, for a time at the start and a time before the start. -/
theorem C3_fraction_clamped_above_only_witness :
    AnimatedAttribute.sample ⟨1, 2, 3, 1⟩ 3 = 1 ∧
    AnimatedAttribute.fraction ⟨1, 2, 3, 1⟩ 0 < 0 :=
  ⟨(C3_fraction_clamped_above_only ⟨1, 2, 3, 1⟩ 3 (by norm_num)).2.2.1 rfl,
    (C3_fraction_clamped_above_only ⟨1, 2, 3, 1⟩ 0 (by norm_num)).2.2.2
      (by norm_num)⟩

/-- C4: for positive duration, the sampled value equals old at t = startTime,
equals new exactly for every t at or after startTime + duration, and the
interpolation fraction is monotonically non-decreasing in t. -/
theorem C4_animation_endpoints_monotone (a : AnimatedAttribute)
    (hd : 0 < a.duration) :
    a.sample a.startTime = a.old ∧
    (∀ t, a.startTime + a.duration ≤ t → a.sample t = a.new) ∧
    (∀ t₁ t₂, t₁ ≤ t₂ → a.fraction t₁ ≤ a.fraction t₂) := by
  refine ⟨?_, ?_, ?_⟩
  · have hfrac : a.fraction a.startTime = 0 := by
      rw [AnimatedAttribute.fraction]
      simp
    rw [AnimatedAttribute.sample, hfrac]
    ring
  · intro t ht
    have hone : (1 : ℚ) ≤ (t - a.startTime) / a.duration :=
      (one_le_div hd).mpr (by linarith)
    have hfrac : a.fraction t = 1 := by
      rw [AnimatedAttribute.fraction]
      exact min_eq_right hone
    rw [AnimatedAttribute.sample, hfrac]
    ring
  · intro t₁ t₂ ht
    apply min_le_min _ le_rfl
    exact (div_le_div_iff_of_pos_right hd).mpr (by linarith)

/-- C4 witness: instantiation of the endpoint and monotonicity theorem at a
concrete attribute. -/
theorem C4_animation_endpoints_monotone_witness :
    AnimatedAttribute.sample ⟨0, 1, 0, 1⟩ 0 = 0 ∧
    AnimatedAttribute.sample ⟨0, 1, 0, 1⟩ 5 = 1 ∧
    AnimatedAttribute.fraction ⟨0, 1, 0, 1⟩ 0 ≤ AnimatedAttribute.fraction ⟨0, 1, 0, 1⟩ 1 := by
  have h := C4_animation_endpoints_monotone ⟨0, 1, 0, 1⟩ (by norm_num)
  exact ⟨h.1, h.2.1 5 (by norm_num), h.2.2 0 1 (by norm_num)⟩

/-- C5 counterexample: with the identity transform, a matching texture index
and a settled animation at position (1, 1), the shader emits clip position
(2, 2, 0, 1) instead of the transform applied to the interpolated position,
which would be (1, 1, 0, 1): the source additionally scales the x, y and z
components by 2. -/
theorem C5_counterexample :
    (vertexMain ⟨⟨1, 1⟩, ⟨1, 1⟩, 0, 1, 1, 1, 0, 1, 0, ⟨0, 0⟩⟩
        ⟨Mat4.identity, 1, 0⟩).gl_Position = ⟨2, 2, 0, 1⟩ ∧
    Mat4.identity.apply ⟨1, 1, 0, 1⟩ = ⟨1, 1, 0, 1⟩ ∧
    (vertexMain ⟨⟨1, 1⟩, ⟨1, 1⟩, 0, 1, 1, 1, 0, 1, 0, ⟨0, 0⟩⟩
        ⟨Mat4.identity, 1, 0⟩).gl_Position ≠ Mat4.identity.apply ⟨1, 1, 0, 1⟩ := by
  refine ⟨?_, ?_, ?_⟩ <;>
    norm_num [vertexMain, Mat4.identity, Mat4.apply, Vec4.compMul, glslInt,
      Vec4.mk.injEq]

/-- C5 amended: the shader computes interpolated position and existence
in-shader from the four animation fields plus the time uniform; a vertex whose
texture index does not match the bound texture index uniform is assigned the
degenerate position (0, 0, 0, 0) rather than skipped, and otherwise its clip
position is the transform matrix applied to the interpolated position, scaled
component-wise by (2, 2, 2, 1). -/
theorem C5_vertex_contract (v : VertexIn) (u : VertexUniforms) :
    (vertexMain v u).curExists = (v.existsAttr).sample u.time ∧
    (u.boundTextureIndex ≠ glslInt v.textureIndex →
      (vertexMain v u).gl_Position = ⟨0, 0, 0, 0⟩) ∧
    (u.boundTextureIndex = glslInt v.textureIndex →
      (vertexMain v u).gl_Position =
        Vec4.compMul
          (u.transform.apply
            ⟨(v.posXAttr).sample u.time, (v.posYAttr).sample u.time, 0, 1⟩)
          ⟨2, 2, 2, 1⟩) := by
  refine ⟨rfl, ?_, ?_⟩
  · intro h
    simp [vertexMain, h]
  · intro h
    simp only [vertexMain, if_pos h]
    rfl

/-- C5 witness: instantiation of the vertex contract at a concrete vertex, for
a mismatching and a matching bound texture index. -/
theorem C5_vertex_contract_witness :
    (vertexMain ⟨⟨1, 1⟩, ⟨1, 1⟩, 0, 1, 1, 1, 0, 1, 0, ⟨0, 0⟩⟩
        ⟨Mat4.identity, 1, 5⟩).gl_Position = ⟨0, 0, 0, 0⟩ ∧
    (vertexMain ⟨⟨1, 1⟩, ⟨1, 1⟩, 0, 1, 1, 1, 0, 1, 0, ⟨0, 0⟩⟩
        ⟨Mat4.identity, 1, 0⟩).curExists
      = AnimatedAttribute.sample ⟨1, 1, 0, 1⟩ 1 := by
  have h1 := C5_vertex_contract ⟨⟨1, 1⟩, ⟨1, 1⟩, 0, 1, 1, 1, 0, 1, 0, ⟨0, 0⟩⟩
    ⟨Mat4.identity, 1, 5⟩
  have h2 := C5_vertex_contract ⟨⟨1, 1⟩, ⟨1, 1⟩, 0, 1, 1, 1, 0, 1, 0, ⟨0, 0⟩⟩
    ⟨Mat4.identity, 1, 0⟩
  exact ⟨h1.2.1 (by decide), h2.1⟩

/-- C6: for any section with distinct source ids and any sequence of valid
local indices, mapping the local indices to their global ids and mapping those
global ids back yields the original local-index sequence. -/
theorem C6_roundtrip (s : Section) (L : List Nat)
    (hnd : s.sourceIds.Nodup) (hL : ∀ i ∈ L, i < s.sourceIds.length) :
    ∃ G, s.localToSource L = some G ∧ s.sourceToLocal G = L := by
  induction L with
  | nil =>
      exact ⟨[], rfl, by simp [Section.sourceToLocal]⟩
  | cons i L ih =>
      have hi : i < s.sourceIds.length := hL i (List.mem_cons_self i L)
      obtain ⟨G, hG1, hG2⟩ := ih (fun j hj => hL j (List.mem_cons_of_mem i hj))
      refine ⟨s.sourceIds[i] :: G, ?_, ?_⟩
      · simp only [Section.localToSource] at hG1 ⊢
        rw [List.mapM_cons, List.get?_eq_getElem?, List.getElem?_eq_getElem hi, hG1]
        rfl
      · have hmem : s.sourceIds[i] ∈ s.sourceIds := List.getElem_mem hi
        have hidx : s.sourceIds.indexOf s.sourceIds[i] = i :=
          List.indexOf_getElem hnd i hi
        simp only [Section.sourceToLocal] at hG2 ⊢
        rw [List.filterMap_cons, if_pos hmem, hidx, hG2]

/-- C6 witness: instantiation of the round-trip theorem at a concrete section
and local-index sequence. -/
theorem C6_roundtrip_witness :
    ∃ G, Section.localToSource ⟨[10, 20, 30]⟩ [2, 0] = some G ∧
      Section.sourceToLocal ⟨[10, 20, 30]⟩ G = [2, 0] :=
  C6_roundtrip ⟨[10, 20, 30]⟩ [2, 0] (by decide) (by decide)

/-- C7: the layout is a deterministic function of the graph and variable
order: permuting the input node list while keeping the node kinds and edges
yields a bit-identical layout output; the root layer is ordered by strictly
ascending global node id; every later layer is ordered by the
crossing-minimization barycenter heuristic over its predecessor layer; and
within any such layer, two nodes tied on barycenter appear in ascending global
node id order — so no order ever comes from insertion order or hashing. -/
theorem C7_layout_deterministic (g₁ g₂ : DiagramGraph)
    (hn : List.Perm g₁.nodes g₂.nodes) (he : g₁.edges = g₂.edges)
    (hk : ∀ v, g₁.kind v = g₂.kind v) :
    layoutResult g₁ = layoutResult g₂ ∧
    List.Sorted (fun a b => a < b) ((orderedLayers g₁).headD []) ∧
    List.Chain' (fun p l => List.Sorted (baryLe g₁.edges p) l)
      (orderedLayers g₁) ∧
    List.Chain' (fun p l => l.Pairwise (fun a b =>
        barycenter g₁.edges p a = barycenter g₁.edges p b → a ≤ b))
      (orderedLayers g₁) := by
  have hcan : canonicalNodes g₁ = canonicalNodes g₂ := canonicalNodes_perm_eq g₁ g₂ hn
  have hlen : g₁.nodes.length = g₂.nodes.length := hn.length_eq
  have hbase : ∀ v, baseLayer g₁ v = baseLayer g₂ v := by
    intro v
    unfold baseLayer
    rw [he, hlen]
  have hfin : finalLayer g₁ = finalLayer g₂ := by
    unfold finalLayer
    rw [hcan]
    exact congrArg (List.foldr max 0) (List.map_congr_left (fun v _ => hbase v))
  have hlayer : ∀ v, layer g₁ v = layer g₂ v := by
    intro v
    unfold layer
    rw [hk v, hfin, hbase v]
  have hmem : ∀ l, layerMembers g₁ l = layerMembers g₂ l := by
    intro l
    unfold layerMembers
    rw [hcan]
    exact List.filter_congr (fun v _ => by rw [hlayer v])
  have hinit : initialLayers g₁ = initialLayers g₂ := by
    unfold initialLayers
    rw [hfin]
    exact List.map_congr_left (fun l _ => hmem l)
  have hord : orderedLayers g₁ = orderedLayers g₂ := by
    unfold orderedLayers
    rw [he, hlen, hinit]
  have hsub : ∀ v, subtreeWidth g₁ v = subtreeWidth g₂ v := by
    intro v
    unfold subtreeWidth
    rw [he, hlen]
  have hx : ∀ v, xPos g₁ v = xPos g₂ v := by
    intro v
    unfold xPos
    simp only [hord, hlayer v, hsub]
  have hoil : ∀ v, orderInLayer g₁ v = orderInLayer g₂ v := by
    intro v
    unfold orderInLayer
    rw [hord, hlayer v]
  refine ⟨?_, ?_, ?_, ?_⟩
  · unfold layoutResult
    rw [hcan]
    exact List.map_congr_left (fun v _ => by rw [hx v, hlayer v, hoil v])
  · rw [show orderedLayers g₁
        = minimizeCrossings g₁.edges g₁.nodes.length (initialLayers g₁) from rfl,
      minimize_headD, initialLayers_headD]
    exact layerMembers_sorted_lt g₁ 0
  · obtain ⟨p, hp⟩ := minimize_is_sweep g₁.edges g₁.nodes.length (initialLayers g₁)
    rw [show orderedLayers g₁ = sweepDown g₁.edges p from hp]
    exact sweepDown_chain g₁.edges p
  · obtain ⟨p, hp⟩ := minimize_is_sweep g₁.edges g₁.nodes.length (initialLayers g₁)
    rw [show orderedLayers g₁ = sweepDown g₁.edges p from hp]
    refine List.Chain'.imp ?_ (sweepDown_chain g₁.edges p)
    intro a b hsorted
    refine hsorted.imp ?_
    intro x y hxy heq
    rcases hxy with hlt | ⟨heq2, hle⟩
    · exact absurd heq (ne_of_lt hlt)
    · exact hle

/-- C7 witness: instantiation of the determinism theorem at two graphs that
differ only in node insertion order. -/
theorem C7_layout_deterministic_witness :
    layoutResult permGraphA = layoutResult permGraphB ∧
    List.Sorted (fun a b => a < b) ((orderedLayers permGraphA).headD []) := by
  have h := C7_layout_deterministic permGraphA permGraphB
    (by decide) rfl (fun v => rfl)
  exact ⟨h.1, h.2.1⟩

/-- C8: on any valid graph — acyclic (witnessed by a topological ranking
bounded by the node count), edges leaving only decision nodes and targeting
nodes of the section — every edge goes from a strictly smaller to a strictly
larger layer, and every node of the graph appears exactly once in the layout
output, however many parents reach it. -/
theorem C8_layer_monotone_unique (g : DiagramGraph) (r : Nat → Nat)
    (hr : ∀ e ∈ g.edges, r e.source < r e.target)
    (hbound : ∀ e ∈ g.edges, r e.target < g.nodes.length)
    (hterm : ∀ e ∈ g.edges, (g.kind e.source).isTerminal = false)
    (htgt : ∀ e ∈ g.edges, e.target ∈ g.nodes) :
    (∀ e ∈ g.edges, layer g e.source < layer g e.target) ∧
    (∀ v ∈ g.nodes, (layoutResult g).countP (fun p => p.1 == v) = 1) := by
  constructor
  · intro e he
    have htb := hbound e he
    have hst := hr e he
    obtain ⟨m, hm⟩ : ∃ m, g.nodes.length = m + 1 := ⟨g.nodes.length - 1, by omega⟩
    have hbase : baseLayer g e.source < baseLayer g e.target := by
      unfold baseLayer
      rw [hm]
      have hp : e.source ∈ preds g.edges e.target := mem_preds.mpr ⟨e, he, rfl, rfl⟩
      have hle : layerFuel g.edges m e.source + 1 ≤
          ((preds g.edges e.target).map
            (fun u => layerFuel g.edges m u + 1)).foldr max 0 :=
        le_foldr_max (List.mem_map.mpr ⟨e.source, hp, rfl⟩)
      have hstb : layerFuel g.edges (m + 1) e.source = layerFuel g.edges m e.source :=
        layerFuel_stable g.edges r hr (r e.source) e.source (m + 1) m le_rfl
          (by omega) (by omega)
      have hunf : layerFuel g.edges (m + 1) e.target
          = ((preds g.edges e.target).map
              (fun u => layerFuel g.edges m u + 1)).foldr max 0 := rfl
      rw [hunf]
      omega
    have hsrc : layer g e.source = baseLayer g e.source := by
      unfold layer
      rw [hterm e he]
      simp
    cases hT : (g.kind e.target).isTerminal with
    | false =>
        have hdec : layer g e.target = baseLayer g e.target := by
          unfold layer
          rw [hT]
          simp
        omega
    | true =>
        have hfin : layer g e.target = finalLayer g := by
          unfold layer
          rw [hT]
          simp
        have hmemc : e.target ∈ canonicalNodes g := mem_canonicalNodes.mpr (htgt e he)
        have hle2 : baseLayer g e.target ≤ finalLayer g :=
          le_foldr_max (List.mem_map.mpr ⟨e.target, hmemc, rfl⟩)
        omega
  · intro v hv
    have hmem : v ∈ canonicalNodes g := mem_canonicalNodes.mpr hv
    unfold layoutResult
    rw [List.countP_map]
    have hcnt : ((canonicalNodes g).countP
        ((fun p : Nat × LayoutPos => p.1 == v) ∘ fun w =>
          (w, ⟨xPos g w, layer g w, orderInLayer g w⟩)))
        = (canonicalNodes g).count v := by
      rfl
    rw [hcnt]
    exact List.count_eq_one_of_mem (canonicalNodes_nodup g) hmem

/-- C8 witness: instantiation on the diamond graph with the identity
topological ranking: the edges along a root-to-leaf path go to strictly larger
layers and the shared terminal leaf 3 appears exactly once in the layout
output. -/
theorem C8_layer_monotone_unique_witness :
    (layer diamondGraph 0 < layer diamondGraph 1 ∧
      layer diamondGraph 1 < layer diamondGraph 3) ∧
    (layoutResult diamondGraph).countP (fun p => p.1 == 3) = 1 := by
  have h := C8_layer_monotone_unique diamondGraph (fun v => v)
    (by decide) (by decide) (by decide) (by decide)
  exact ⟨⟨h.1 ⟨0, 1, 0⟩ (by decide), h.1 ⟨1, 3, 0⟩ (by decide)⟩,
    h.2 3 (by decide)⟩

/-- C9: the configuration-component dispatch is total over all config values
and returns the empty fragment exactly for values that are not instances of
any of the nine handled config classes. -/
theorem C9_dispatch_total :
    ∀ v : IConfigObjectType,
      ConfigTypeComp v = ConfigComp.emptyFragment ↔ isHandledConfig v = false := by
  intro v
  cases v <;> decide

/-- C10: the Load-from-file buttons of the diagram summary are disabled exactly
when some existing section is a FileSource; consequently one summary action
preserves the at-most-one-file-section invariant, and any sequence of summary
actions starting from an empty diagram leaves at most one file-backed
section. -/
theorem C10_at_most_one_file_section (sections : List DiagramSection)
    (h : countFileSources sections ≤ 1) :
    (addSectionButtonDisabled sections = true ↔
      ∃ s ∈ sections, DiagramSection.isFileSource s = true) ∧
    (∀ a, countFileSources (applySummaryAction sections a) ≤ 1) ∧
    (∀ actions : List SummaryAction,
      countFileSources (actions.foldl applySummaryAction []) ≤ 1) := by
  refine ⟨?_, fun a => applySummaryAction_preserves sections h a,
    fun actions => foldSummaryActions_le actions [] (by simp [countFileSources])⟩
  simp [addSectionButtonDisabled, canCreateFromFile, List.any_eq_true]

/-- C10 witness: instantiation at a diagram that already holds one file-backed
section: the button is disabled and loading another file leaves the count at
one. -/
theorem C10_at_most_one_file_section_witness :
    (addSectionButtonDisabled [DiagramSection.fileSource 0] = true ↔
      ∃ s ∈ [DiagramSection.fileSource 0], DiagramSection.isFileSource s = true) ∧
    countFileSources
      (applySummaryAction [DiagramSection.fileSource 0]
        (SummaryAction.loadFromFile 1)) ≤ 1 := by
  have h := C10_at_most_one_file_section [DiagramSection.fileSource 0] (by decide)
  exact ⟨h.1, h.2.1 (SummaryAction.loadFromFile 1)⟩

